import Mathlib

/-!
Pizza (src/js/index.js)

A shallow embedding of the `Pizza` constructor function, its static catalogs and its
prototype methods.

Modelling conventions.

* A JavaScript value is a `JSValue`.  An object literal of the shape
  `{name: <string>, price: <number>}` is `JSValue.object o` with `o : OptionObject`; the field
  `ref` of an `OptionObject` is the identity of the object (its address), so two literals with
  the same contents and different `ref` are different objects.  Strict equality (`===`, the
  comparison `Array.prototype.indexOf` uses) is equality of `JSValue`s.
* Prices are natural numbers: every price of the catalogs is a small non-negative integer, and
  on such numbers the addition of doubles is exact.
* A method that mutates `this` and may throw is a function from the state before the call to
  the pair (outcome, state after the call); a `throw` ends the call with the state as it is at
  that point.
* `new Pizza(...)` either returns the constructed object or throws, so it is a function into
  `Except PizzaException Pizza`.
-/

/-- An object literal `{name: ..., price: ...}`; `ref` is the object identity. -/
structure OptionObject where
  ref : Nat
  name : String
  price : Nat
  deriving DecidableEq, Repr

/-- The JavaScript values a caller can pass. `other ref` is any object that is not of the
shape `{name, price}` (an array, a function, `{}`...). -/
inductive JSValue where
  | undefined
  | null
  | boolean (b : Bool)
  | number (n : Int)
  | string (s : String)
  | object (o : OptionObject)
  | other (ref : Nat)
  deriving DecidableEq, Repr

namespace JSValue

/-- Reading `item.price` where a number is needed: `none` when the read does not yield a
number (a `TypeError` on `undefined` and `null`, the value `undefined` otherwise). -/
def price : JSValue → Option Nat
  | object o => some o.price
  | _ => none

/-- Reading `item.name` where a string is needed: `none` when the read does not yield a
string. -/
def name : JSValue → Option String
  | object o => some o.name
  | _ => none

end JSValue

/-- `Array.prototype.indexOf` scanning from position `i`: the index of the first element
strictly equal to `v`, or `-1`. -/
def indexOfFrom (xs : List JSValue) (v : JSValue) (i : Nat) : Int :=
  match xs with
  | [] => -1
  | x :: rest => if x = v then (i : Int) else indexOfFrom rest v (i + 1)

/-- `xs.indexOf(v)`. -/
def indexOf (xs : List JSValue) (v : JSValue) : Int :=
  indexOfFrom xs v 0

/-- `xs.push(v)`: the array with `v` appended. -/
def push (xs : List JSValue) (v : JSValue) : List JSValue :=
  xs ++ [v]

/-- `xs.splice(start, deleteCount)`: the array after deleting `deleteCount` elements from
position `start` (a negative `start` counts from the end, as in JavaScript). -/
def splice (xs : List JSValue) (start : Int) (deleteCount : Nat) : List JSValue :=
  let len : Int := xs.length
  let s : Nat := if start < 0 then (max (len + start) 0).toNat else (min start len).toNat
  xs.take s ++ xs.drop (s + deleteCount)

/-- The exception object: `this.log = message`. -/
structure PizzaException where
  log : String
  deriving DecidableEq, Repr

/-- The instance fields set by the constructor. -/
structure Pizza where
  size : JSValue
  type : JSValue
  extraIngredients : List JSValue
  deriving DecidableEq, Repr

namespace Pizza

def NUMBER_OF_ARGUMENTS : Nat := 2

def SIZE_S : JSValue := .object ⟨0, "SMALL", 50⟩
def SIZE_M : JSValue := .object ⟨1, "MEDIUM", 75⟩
def SIZE_L : JSValue := .object ⟨2, "LARGE", 100⟩

def TYPE_VEGGIE : JSValue := .object ⟨3, "VEGGIE", 50⟩
def TYPE_MARGHERITA : JSValue := .object ⟨4, "MARGHERITA", 60⟩
def TYPE_PEPPERONI : JSValue := .object ⟨5, "PEPPERONI", 70⟩

def EXTRA_TOMATOES : JSValue := .object ⟨6, "TOMATOES", 5⟩
def EXTRA_CHEESE : JSValue := .object ⟨7, "CHEESE", 7⟩
def EXTRA_MEAT : JSValue := .object ⟨8, "MEAT", 9⟩

def allowedSizes : List JSValue := [SIZE_S, SIZE_M, SIZE_L]
def allowedTypes : List JSValue := [TYPE_VEGGIE, TYPE_MARGHERITA, TYPE_PEPPERONI]
def allowedExtraIngredients : List JSValue := [EXTRA_TOMATOES, EXTRA_CHEESE, EXTRA_MEAT]

/-- The constructor call `new Pizza(...arguments)`: `size` and `type` are the first two
arguments (`undefined` when absent). -/
def new (arguments : List JSValue) : Except PizzaException Pizza :=
  let size := arguments.getD 0 .undefined
  let type := arguments.getD 1 .undefined
  if arguments.length ≠ NUMBER_OF_ARGUMENTS then
    .error ⟨"Invalid number of parameters passed to pizza, given " ++
      toString arguments.length ++ " instead of 2"⟩
  else if indexOf allowedSizes size ≥ 0 then
    if indexOf allowedTypes type ≥ 0 then
      .ok { size := size, type := type, extraIngredients := [] }
    else
      .error ⟨"Invalid type of pizza"⟩
  else
    .error ⟨"Invalid size of pizza"⟩

/-- The method `addExtraIngredient(extra)`: outcome and state after the call. -/
def addExtraIngredient (self : Pizza) (extra : JSValue) : Except PizzaException Unit × Pizza :=
  if indexOf allowedExtraIngredients extra < 0 then
    (.error ⟨"Invalid ingredient"⟩, self)
  else if indexOf self.extraIngredients extra ≥ 0 then
    (.error ⟨"Ingredient is already added"⟩, self)
  else
    (.ok (), { self with extraIngredients := push self.extraIngredients extra })

/-- The method `removeExtraIngredient(extra)`: outcome and state after the call. -/
def removeExtraIngredient (self : Pizza) (extra : JSValue) : Except PizzaException Unit × Pizza :=
  if indexOf allowedExtraIngredients extra < 0 then
    (.error ⟨"Ingredient does not exist"⟩, self)
  else if indexOf self.extraIngredients extra < 0 then
    (.error ⟨"No such ingredient in this pizza"⟩, self)
  else
    (.ok (), { self with
      extraIngredients := splice self.extraIngredients (indexOf self.extraIngredients extra) 1 })

/-- The method `getExtraIngredients()`. -/
def getExtraIngredients (self : Pizza) : List JSValue :=
  self.extraIngredients

/-- The method `getSize()`. -/
def getSize (self : Pizza) : JSValue :=
  self.size

/-- The method `getPrice()`: the reduce over `[size, type, ...extraIngredients]` with the
callback `(totalPrice, item) => totalPrice + item.price`, starting from `0`. -/
def getPrice (self : Pizza) : Option Nat :=
  (self.size :: self.type :: self.extraIngredients).foldl
    (fun totalPrice item => do
      let t ← totalPrice
      let p ← item.price
      pure (t + p))
    (some 0)

/-- The reduce callback of `getIngredients`, with the index passed along. -/
def getIngredientsStep (acc : Option String × Nat) (item : JSValue) : Option String × Nat :=
  let extras := acc.1
  let index := acc.2
  if index = 0 then
    ((do let e ← extras; let n ← item.name; pure (e ++ n)), index + 1)
  else
    ((do let e ← extras; let n ← item.name; pure (e ++ ", " ++ n)), index + 1)

/-- The local function `getIngredients(extraIngredients)` of `getPizzaInfo`. -/
def getIngredients (extraIngredients : List JSValue) : Option String :=
  if extraIngredients.length = 0 then
    some "none"
  else if extraIngredients.length = 1 then
    (extraIngredients.getD 0 .undefined).name
  else
    (extraIngredients.foldl getIngredientsStep (some "", 0)).1

/-- The method `getPizzaInfo()`. -/
def getPizzaInfo (self : Pizza) : Option String := do
  let sizeName ← self.size.name
  let typeName ← self.type.name
  let ingredients ← getIngredients self.extraIngredients
  let price ← self.getPrice
  pure (("Size: " ++ sizeName ++ ", type: " ++ typeName ++ "; ") ++
    ("extra ingredients: " ++ ingredients ++ "; price: " ++ toString price ++ "UAH."))

end Pizza

/-- One call made on a pizza by its user. -/
inductive Call where
  | addExtraIngredient (extra : JSValue)
  | removeExtraIngredient (extra : JSValue)
  deriving DecidableEq, Repr

/-- The state after one call, whether it returned or threw. -/
def Call.apply (p : Pizza) : Call → Pizza
  | .addExtraIngredient extra => (p.addExtraIngredient extra).2
  | .removeExtraIngredient extra => (p.removeExtraIngredient extra).2

/-- The state after a sequence of calls, made one after the other on the same pizza. -/
def runCalls (p : Pizza) (calls : List Call) : Pizza :=
  calls.foldl Call.apply p

/-- A pizza is reachable when a successful construction followed by calls produces it. -/
def Reachable (p : Pizza) : Prop :=
  ∃ (arguments : List JSValue) (p0 : Pizza) (calls : List Call),
    Pizza.new arguments = .ok p0 ∧ runCalls p0 calls = p

/-- The invariant of the data model: no duplicate extra, every extra from the catalog of
extras, the size from the catalog of sizes and the type from the catalog of types. -/
def Pizza.Valid (p : Pizza) : Prop :=
  p.extraIngredients.Nodup ∧
  (∀ e ∈ p.extraIngredients, e ∈ Pizza.allowedExtraIngredients) ∧
  p.size ∈ Pizza.allowedSizes ∧
  p.type ∈ Pizza.allowedTypes

/-- The rendering of the extras in the words of the specification: the literal `none` for no
extra, the name alone for one extra, and for two or more the names joined with a comma and
one space, in order. -/
def renderExtras : List String → String
  | [] => "none"
  | [n] => n
  | names => ", ".intercalate names

/-- One method call of the public interface, mutating or querying. -/
inductive Operation where
  | addExtraIngredient (extra : JSValue)
  | removeExtraIngredient (extra : JSValue)
  | getExtraIngredients
  | getPrice
  | getPizzaInfo
  | getSize
  deriving DecidableEq, Repr

/-- The state after one method call: the two mutators leave the state their body leaves,
the four getters only read the fields of `this` and assign none. -/
def Operation.apply (p : Pizza) : Operation → Pizza
  | .addExtraIngredient extra => (p.addExtraIngredient extra).2
  | .removeExtraIngredient extra => (p.removeExtraIngredient extra).2
  | .getExtraIngredients => p
  | .getPrice => p
  | .getPizzaInfo => p
  | .getSize => p

/-- The state after a sequence of method calls on the same pizza. -/
def runOperations (p : Pizza) (ops : List Operation) : Pizza :=
  ops.foldl Operation.apply p

/-- The reference rendering of a list of names: `none` for the empty list, otherwise the
names intercalated with a comma and one space. -/
def getIngredientsReference (names : List String) : String :=
  if names = [] then "none" else ", ".intercalate names

/-- The single reduce branch of `getIngredients`, run on any list. -/
def getIngredientsReduce (extraIngredients : List JSValue) : Option String :=
  (extraIngredients.foldl Pizza.getIngredientsStep (some "", 0)).1

/-! ## Array primitives -/

theorem indexOfFrom_neg_one_of_not_mem (xs : List JSValue) (v : JSValue) (i : Nat)
    (h : v ∉ xs) : indexOfFrom xs v i = -1 := by
  induction xs generalizing i with
  | nil => rfl
  | cons x rest ih =>
    have hx : x ≠ v := fun e => h (by simp [e])
    have hr : v ∉ rest := fun m => h (List.mem_cons_of_mem _ m)
    simp [indexOfFrom, hx, ih _ hr]

theorem indexOfFrom_split (xs : List JSValue) (v : JSValue) (i : Nat) (h : v ∈ xs) :
    ∃ l1 l2, xs = l1 ++ v :: l2 ∧ v ∉ l1 ∧ indexOfFrom xs v i = ((i + l1.length : Nat) : Int) := by
  induction xs generalizing i with
  | nil => simp at h
  | cons x rest ih =>
    by_cases hx : x = v
    · exact ⟨[], rest, by simp [hx], by simp, by simp [indexOfFrom, hx]⟩
    · have hr : v ∈ rest := by
        rcases List.mem_cons.mp h with e | m
        · exact absurd e.symm hx
        · exact m
      obtain ⟨l1, l2, e, hn, hi⟩ := ih (i + 1) hr
      refine ⟨x :: l1, l2, by simp [e], ?_, ?_⟩
      · simp only [List.mem_cons, not_or]
        exact ⟨fun e => hx e.symm, hn⟩
      · simp only [indexOfFrom, hx, if_false, hi, List.length_cons]
        congr 1
        omega

theorem indexOf_nonneg_iff (xs : List JSValue) (v : JSValue) : indexOf xs v ≥ 0 ↔ v ∈ xs := by
  constructor
  · intro h
    by_contra hn
    rw [indexOf, indexOfFrom_neg_one_of_not_mem xs v 0 hn] at h
    omega
  · intro h
    obtain ⟨l1, l2, -, -, hi⟩ := indexOfFrom_split xs v 0 h
    rw [indexOf, hi]
    omega

theorem indexOf_neg_iff (xs : List JSValue) (v : JSValue) : indexOf xs v < 0 ↔ v ∉ xs := by
  rw [← indexOf_nonneg_iff]
  omega

theorem splice_length_one (l1 l2 : List JSValue) (v : JSValue) :
    splice (l1 ++ v :: l2) ((l1.length : Nat) : Int) 1 = l1 ++ l2 := by
  have hs : (if ((l1.length : Nat) : Int) < 0
      then (max (((l1 ++ v :: l2).length : Nat) + ((l1.length : Nat) : Int)) 0).toNat
      else (min ((l1.length : Nat) : Int) ((l1 ++ v :: l2).length : Nat)).toNat) = l1.length := by
    have h0 : ¬ ((l1.length : Nat) : Int) < 0 := by omega
    rw [if_neg h0]
    simp only [List.length_append, List.length_cons]
    omega
  unfold splice
  simp only [hs]
  simp

/-! ## The methods in terms of membership -/

namespace Pizza

theorem addExtraIngredient_invalid (p : Pizza) (extra : JSValue)
    (h : extra ∉ allowedExtraIngredients) :
    p.addExtraIngredient extra = (.error ⟨"Invalid ingredient"⟩, p) := by
  have h1 : indexOf allowedExtraIngredients extra < 0 := (indexOf_neg_iff _ _).mpr h
  simp [addExtraIngredient, h1]

theorem addExtraIngredient_duplicate (p : Pizza) (extra : JSValue)
    (h : extra ∈ allowedExtraIngredients) (hd : extra ∈ p.extraIngredients) :
    p.addExtraIngredient extra = (.error ⟨"Ingredient is already added"⟩, p) := by
  have h1 : ¬ indexOf allowedExtraIngredients extra < 0 := by
    have := (indexOf_nonneg_iff _ _).mpr h
    omega
  have h2 : indexOf p.extraIngredients extra ≥ 0 := (indexOf_nonneg_iff _ _).mpr hd
  simp [addExtraIngredient, h1, h2]

theorem addExtraIngredient_fresh (p : Pizza) (extra : JSValue)
    (h : extra ∈ allowedExtraIngredients) (hd : extra ∉ p.extraIngredients) :
    p.addExtraIngredient extra =
      (.ok (), { p with extraIngredients := p.extraIngredients ++ [extra] }) := by
  have h1 : ¬ indexOf allowedExtraIngredients extra < 0 := by
    have := (indexOf_nonneg_iff _ _).mpr h
    omega
  have h2 : ¬ indexOf p.extraIngredients extra ≥ 0 := by
    have := (indexOf_neg_iff _ _).mpr hd
    omega
  simp [addExtraIngredient, h1, h2, push]

theorem removeExtraIngredient_invalid (p : Pizza) (extra : JSValue)
    (h : extra ∉ allowedExtraIngredients) :
    p.removeExtraIngredient extra = (.error ⟨"Ingredient does not exist"⟩, p) := by
  have h1 : indexOf allowedExtraIngredients extra < 0 := (indexOf_neg_iff _ _).mpr h
  simp [removeExtraIngredient, h1]

theorem removeExtraIngredient_absent (p : Pizza) (extra : JSValue)
    (h : extra ∈ allowedExtraIngredients) (hd : extra ∉ p.extraIngredients) :
    p.removeExtraIngredient extra = (.error ⟨"No such ingredient in this pizza"⟩, p) := by
  have h1 : ¬ indexOf allowedExtraIngredients extra < 0 := by
    have := (indexOf_nonneg_iff _ _).mpr h
    omega
  have h2 : indexOf p.extraIngredients extra < 0 := (indexOf_neg_iff _ _).mpr hd
  simp [removeExtraIngredient, h1, h2]

theorem removeExtraIngredient_present (p : Pizza) (extra : JSValue)
    (h : extra ∈ allowedExtraIngredients) (hd : extra ∈ p.extraIngredients) :
    ∃ l1 l2, p.extraIngredients = l1 ++ extra :: l2 ∧ extra ∉ l1 ∧
      p.removeExtraIngredient extra = (.ok (), { p with extraIngredients := l1 ++ l2 }) := by
  have h1 : ¬ indexOf allowedExtraIngredients extra < 0 := by
    have := (indexOf_nonneg_iff _ _).mpr h
    omega
  have h2 : ¬ indexOf p.extraIngredients extra < 0 := by
    have := (indexOf_nonneg_iff _ _).mpr hd
    omega
  obtain ⟨l1, l2, e, hn, hi⟩ := indexOfFrom_split p.extraIngredients extra 0 hd
  refine ⟨l1, l2, e, hn, ?_⟩
  have hi2 : indexOf p.extraIngredients extra = ((l1.length : Nat) : Int) := by
    rw [indexOf, hi]
    simp
  have hsp : splice p.extraIngredients (indexOf p.extraIngredients extra) 1 = l1 ++ l2 := by
    rw [hi2, e]
    exact splice_length_one l1 l2 extra
  simp only [removeExtraIngredient, if_neg h1, if_neg h2, hsp]

theorem new_ok_iff (arguments : List JSValue) (p : Pizza) :
    Pizza.new arguments = .ok p ↔
      arguments.length = 2 ∧ arguments.getD 0 .undefined ∈ allowedSizes ∧
      arguments.getD 1 .undefined ∈ allowedTypes ∧
      p = ⟨arguments.getD 0 .undefined, arguments.getD 1 .undefined, []⟩ := by
  unfold Pizza.new
  simp only [NUMBER_OF_ARGUMENTS, indexOf_nonneg_iff]
  generalize arguments.getD 0 .undefined = size
  generalize arguments.getD 1 .undefined = type
  by_cases hl : arguments.length = 2 <;> by_cases hs : size ∈ allowedSizes <;>
    by_cases ht : type ∈ allowedTypes <;> simp [hl, hs, ht, eq_comm]

theorem Valid_new (arguments : List JSValue) (p : Pizza) (h : Pizza.new arguments = .ok p) :
    p.Valid := by
  obtain ⟨-, hs, ht, rfl⟩ := (new_ok_iff arguments p).mp h
  exact ⟨List.nodup_nil, by simp, hs, ht⟩

theorem Valid_addExtraIngredient (p : Pizza) (extra : JSValue) (h : p.Valid) :
    (p.addExtraIngredient extra).2.Valid := by
  by_cases ha : extra ∈ allowedExtraIngredients
  · by_cases hd : extra ∈ p.extraIngredients
    · rw [addExtraIngredient_duplicate p extra ha hd]
      exact h
    · rw [addExtraIngredient_fresh p extra ha hd]
      obtain ⟨hn, hm, hs, ht⟩ := h
      refine ⟨?_, ?_, hs, ht⟩
      · exact List.nodup_append.mpr ⟨hn, List.nodup_singleton _, by
          intro a ha1 ha2
          rw [List.mem_singleton] at ha2
          exact hd (ha2 ▸ ha1)⟩
      · intro e he
        rcases List.mem_append.mp he with he | he
        · exact hm e he
        · rw [List.mem_singleton] at he
          exact he ▸ ha
  · rw [addExtraIngredient_invalid p extra ha]
    exact h

theorem Valid_removeExtraIngredient (p : Pizza) (extra : JSValue) (h : p.Valid) :
    (p.removeExtraIngredient extra).2.Valid := by
  by_cases ha : extra ∈ allowedExtraIngredients
  · by_cases hd : extra ∈ p.extraIngredients
    · obtain ⟨l1, l2, e, -, hr⟩ := removeExtraIngredient_present p extra ha hd
      rw [hr]
      obtain ⟨hn, hm, hs, ht⟩ := h
      rw [e] at hn hm
      refine ⟨?_, ?_, hs, ht⟩
      · exact (List.nodup_append.mp hn).1.append (List.nodup_cons.mp (List.nodup_append.mp hn).2.1).2
          (fun a h1 h2 => (List.nodup_append.mp hn).2.2 h1 (List.mem_cons_of_mem _ h2))
      · intro x hx
        apply hm
        rcases List.mem_append.mp hx with hx | hx
        · exact List.mem_append_left _ hx
        · exact List.mem_append_right _ (List.mem_cons_of_mem _ hx)
    · rw [removeExtraIngredient_absent p extra ha hd]
      exact h
  · rw [removeExtraIngredient_invalid p extra ha]
    exact h

end Pizza

theorem Valid_runCalls (p : Pizza) (calls : List Call) (h : p.Valid) :
    (runCalls p calls).Valid := by
  induction calls generalizing p with
  | nil => exact h
  | cons c rest ih =>
    have hstep : (Call.apply p c).Valid := by
      cases c with
      | addExtraIngredient extra => exact Pizza.Valid_addExtraIngredient p extra h
      | removeExtraIngredient extra => exact Pizza.Valid_removeExtraIngredient p extra h
    exact ih (Call.apply p c) hstep

theorem Reachable.valid {p : Pizza} (h : Reachable p) : p.Valid := by
  obtain ⟨arguments, p0, calls, hn, rfl⟩ := h
  exact Valid_runCalls p0 calls (Pizza.Valid_new arguments p0 hn)

theorem catalog_member_is_object (v : JSValue)
    (h : v ∈ Pizza.allowedSizes ∨ v ∈ Pizza.allowedTypes ∨ v ∈ Pizza.allowedExtraIngredients) :
    ∃ o, v = JSValue.object o := by
  simp only [Pizza.allowedSizes, Pizza.allowedTypes, Pizza.allowedExtraIngredients,
    List.mem_cons, List.mem_singleton, List.not_mem_nil, or_false] at h
  rcases h with (h | h | h) | (h | h | h) | (h | h | h) <;> exact ⟨_, h⟩

theorem list_of_objects (xs : List JSValue) (h : ∀ e ∈ xs, ∃ o, e = JSValue.object o) :
    ∃ os : List OptionObject, xs = os.map JSValue.object := by
  induction xs with
  | nil => exact ⟨[], rfl⟩
  | cons x rest ih =>
    obtain ⟨o, ho⟩ := h x (List.mem_cons_self _ _)
    obtain ⟨os, hos⟩ := ih (fun e he => h e (List.mem_cons_of_mem _ he))
    exact ⟨o :: os, by simp [ho, hos]⟩

theorem Reachable.objects {p : Pizza} (h : Reachable p) :
    ∃ (size type : OptionObject) (extras : List OptionObject),
      p = ⟨.object size, .object type, extras.map .object⟩ := by
  obtain ⟨-, hm, hs, ht⟩ := h.valid
  obtain ⟨size, hsize⟩ := catalog_member_is_object p.size (Or.inl hs)
  obtain ⟨type, htype⟩ := catalog_member_is_object p.type (Or.inr (Or.inl ht))
  obtain ⟨extras, hextras⟩ := list_of_objects p.extraIngredients
    (fun e he => catalog_member_is_object e (Or.inr (Or.inr (hm e he))))
  refine ⟨size, type, extras, ?_⟩
  cases p
  simp_all

/-! ## Claims -/

/-- C1: after a successful construction, every sequence of `addExtraIngredient` and
`removeExtraIngredient` calls (any arguments, returning or throwing) leaves a pizza whose
extras have no duplicate and all belong to `Pizza.allowedExtraIngredients`, whose size is in
`Pizza.allowedSizes` and whose type is in `Pizza.allowedTypes`. -/
theorem invariant_after_calls (arguments : List JSValue) (p0 : Pizza) (calls : List Call)
    (h : Pizza.new arguments = .ok p0) :
    (runCalls p0 calls).extraIngredients.Nodup ∧
    (∀ e ∈ (runCalls p0 calls).extraIngredients, e ∈ Pizza.allowedExtraIngredients) ∧
    (runCalls p0 calls).size ∈ Pizza.allowedSizes ∧
    (runCalls p0 calls).type ∈ Pizza.allowedTypes :=
  Valid_runCalls p0 calls (Pizza.Valid_new arguments p0 h)

theorem invariant_after_calls_witness :
    Pizza.new [Pizza.SIZE_M, Pizza.TYPE_PEPPERONI] = .ok ⟨Pizza.SIZE_M, Pizza.TYPE_PEPPERONI, []⟩ ∧
    runCalls ⟨Pizza.SIZE_M, Pizza.TYPE_PEPPERONI, []⟩
      [.addExtraIngredient Pizza.EXTRA_MEAT, .addExtraIngredient Pizza.EXTRA_MEAT,
       .addExtraIngredient Pizza.SIZE_S, .removeExtraIngredient Pizza.EXTRA_CHEESE,
       .addExtraIngredient Pizza.EXTRA_CHEESE, .removeExtraIngredient Pizza.EXTRA_MEAT]
      = ⟨Pizza.SIZE_M, Pizza.TYPE_PEPPERONI, [Pizza.EXTRA_CHEESE]⟩ ∧
    [Pizza.EXTRA_CHEESE].Nodup ∧
    (∀ e ∈ [Pizza.EXTRA_CHEESE], e ∈ Pizza.allowedExtraIngredients) ∧
    Pizza.SIZE_M ∈ Pizza.allowedSizes ∧ Pizza.TYPE_PEPPERONI ∈ Pizza.allowedTypes :=
  ⟨rfl, by decide,
    invariant_after_calls [Pizza.SIZE_M, Pizza.TYPE_PEPPERONI]
      ⟨Pizza.SIZE_M, Pizza.TYPE_PEPPERONI, []⟩
      [.addExtraIngredient Pizza.EXTRA_MEAT, .addExtraIngredient Pizza.EXTRA_MEAT,
       .addExtraIngredient Pizza.SIZE_S, .removeExtraIngredient Pizza.EXTRA_CHEESE,
       .addExtraIngredient Pizza.EXTRA_CHEESE, .removeExtraIngredient Pizza.EXTRA_MEAT]
      rfl⟩

theorem getPrice_foldl (extras : List OptionObject) (t : Nat) :
    (extras.map JSValue.object).foldl
      (fun totalPrice item => do
        let t ← totalPrice
        let p ← item.price
        pure (t + p))
      (some t) = some (t + (extras.map (fun e => e.price)).sum) := by
  induction extras generalizing t with
  | nil => simp
  | cons e rest ih =>
    simp only [List.map_cons, List.foldl_cons, List.sum_cons]
    have hstep : (do let t ← some t; let p ← (JSValue.object e).price; pure (t + p) : Option Nat)
        = some (t + e.price) := rfl
    rw [hstep, ih]
    congr 1
    omega

theorem getPrice_objects (size type : OptionObject) (extras : List OptionObject) :
    Pizza.getPrice ⟨.object size, .object type, extras.map .object⟩ =
      some (size.price + type.price + (extras.map (fun e => e.price)).sum) := by
  unfold Pizza.getPrice
  simp only [List.foldl_cons]
  have h2 : (do let t ← (do let t ← some 0; let p ← (JSValue.object size).price; pure (t + p));
                let p ← (JSValue.object type).price; pure (t + p) : Option Nat)
      = some (size.price + type.price) := by
    simp [JSValue.price]
  rw [h2, getPrice_foldl]

/-- C2: for every pizza whose size, type and extras are option objects, `getPrice()` is
`size.price + type.price` plus the sum of the prices of all extras; with no extras it is
`size.price + type.price`; and every reachable pizza is such a pizza. -/
theorem getPrice_eq_sum (size type : OptionObject) (extras : List OptionObject) :
    Pizza.getPrice ⟨.object size, .object type, extras.map .object⟩ =
      some (size.price + type.price + (extras.map (fun e => e.price)).sum) ∧
    Pizza.getPrice ⟨.object size, .object type, []⟩ = some (size.price + type.price) ∧
    (∀ p : Pizza, Reachable p →
      ∃ (s t : OptionObject) (es : List OptionObject),
        p = ⟨.object s, .object t, es.map .object⟩ ∧
        p.getPrice = some (s.price + t.price + (es.map (fun e => e.price)).sum)) := by
  refine ⟨getPrice_objects size type extras, by simpa using getPrice_objects size type [], ?_⟩
  intro p hr
  obtain ⟨s, t, es, rfl⟩ := hr.objects
  exact ⟨s, t, es, rfl, getPrice_objects s t es⟩

theorem getPrice_eq_sum_witness :
    ∃ (s t : OptionObject) (es : List OptionObject),
      (⟨Pizza.SIZE_S, Pizza.TYPE_VEGGIE, [Pizza.EXTRA_MEAT]⟩ : Pizza) =
        ⟨.object s, .object t, es.map .object⟩ ∧
      Pizza.getPrice ⟨Pizza.SIZE_S, Pizza.TYPE_VEGGIE, [Pizza.EXTRA_MEAT]⟩ =
        some (s.price + t.price + (es.map (fun e => e.price)).sum) :=
  (getPrice_eq_sum ⟨0, "", 0⟩ ⟨0, "", 0⟩ []).2.2
    ⟨Pizza.SIZE_S, Pizza.TYPE_VEGGIE, [Pizza.EXTRA_MEAT]⟩
    ⟨[Pizza.SIZE_S, Pizza.TYPE_VEGGIE], ⟨Pizza.SIZE_S, Pizza.TYPE_VEGGIE, []⟩,
      [.addExtraIngredient Pizza.EXTRA_MEAT], rfl, by decide⟩

/-- C3: for every size of `Pizza.allowedSizes` and type of `Pizza.allowedTypes`, the
constructor called with exactly these two arguments returns a pizza with that size, that
type and no extra. -/
theorem new_succeeds (size type : JSValue) (hs : size ∈ Pizza.allowedSizes)
    (ht : type ∈ Pizza.allowedTypes) :
    Pizza.new [size, type] = .ok ⟨size, type, []⟩ :=
  (Pizza.new_ok_iff [size, type] ⟨size, type, []⟩).mpr ⟨rfl, hs, ht, rfl⟩

theorem new_succeeds_witness :
    Pizza.SIZE_L ∈ Pizza.allowedSizes ∧ Pizza.TYPE_MARGHERITA ∈ Pizza.allowedTypes ∧
    Pizza.new [Pizza.SIZE_L, Pizza.TYPE_MARGHERITA] =
      .ok ⟨Pizza.SIZE_L, Pizza.TYPE_MARGHERITA, []⟩ :=
  ⟨by decide, by decide,
    new_succeeds Pizza.SIZE_L Pizza.TYPE_MARGHERITA (by decide) (by decide)⟩

/-- C4: `addExtraIngredient(extra)` throws exactly when `extra` is not in
`Pizza.allowedExtraIngredients` or is already among the extras; an extra outside the catalog
is reported as 'Invalid ingredient', a catalog extra already present (on a reachable pizza:
any extra already present) as 'Ingredient is already added'; and when the call throws, the
pizza is what it was before the call. -/
theorem addExtraIngredient_throws_iff (p : Pizza) (extra : JSValue) :
    ((∃ e, (p.addExtraIngredient extra).1 = .error e) ↔
      (extra ∉ Pizza.allowedExtraIngredients ∨ extra ∈ p.extraIngredients)) ∧
    (extra ∉ Pizza.allowedExtraIngredients →
      (p.addExtraIngredient extra).1 = .error ⟨"Invalid ingredient"⟩) ∧
    (extra ∈ Pizza.allowedExtraIngredients → extra ∈ p.extraIngredients →
      (p.addExtraIngredient extra).1 = .error ⟨"Ingredient is already added"⟩) ∧
    (Reachable p → extra ∈ p.extraIngredients →
      (p.addExtraIngredient extra).1 = .error ⟨"Ingredient is already added"⟩) ∧
    (∀ e, (p.addExtraIngredient extra).1 = .error e → (p.addExtraIngredient extra).2 = p) := by
  by_cases ha : extra ∈ Pizza.allowedExtraIngredients
  · by_cases hd : extra ∈ p.extraIngredients
    · simp [Pizza.addExtraIngredient_duplicate p extra ha hd, ha, hd]
    · simp [Pizza.addExtraIngredient_fresh p extra ha hd, ha, hd]
  · rw [Pizza.addExtraIngredient_invalid p extra ha]
    refine ⟨by simp [ha], fun _ => rfl, fun h => absurd h ha, fun hr hd => ?_, fun _ _ => rfl⟩
    exact absurd (hr.valid.2.1 extra hd) ha

theorem addExtraIngredient_throws_iff_witness :
    (Pizza.addExtraIngredient ⟨Pizza.SIZE_S, Pizza.TYPE_VEGGIE, [Pizza.EXTRA_MEAT]⟩
        Pizza.EXTRA_MEAT).1 = .error ⟨"Ingredient is already added"⟩ ∧
    (Pizza.addExtraIngredient ⟨Pizza.SIZE_S, Pizza.TYPE_VEGGIE, [Pizza.EXTRA_MEAT]⟩
        Pizza.TYPE_VEGGIE).1 = .error ⟨"Invalid ingredient"⟩ :=
  ⟨(addExtraIngredient_throws_iff ⟨Pizza.SIZE_S, Pizza.TYPE_VEGGIE, [Pizza.EXTRA_MEAT]⟩
      Pizza.EXTRA_MEAT).2.2.2.1
      ⟨[Pizza.SIZE_S, Pizza.TYPE_VEGGIE], ⟨Pizza.SIZE_S, Pizza.TYPE_VEGGIE, []⟩,
        [.addExtraIngredient Pizza.EXTRA_MEAT], rfl, by decide⟩
      (by decide),
   (addExtraIngredient_throws_iff ⟨Pizza.SIZE_S, Pizza.TYPE_VEGGIE, [Pizza.EXTRA_MEAT]⟩
      Pizza.TYPE_VEGGIE).2.1 (by decide)⟩

/-- C5: `removeExtraIngredient(extra)` throws exactly when `extra` is not in
`Pizza.allowedExtraIngredients` or is not among the extras; and when the call throws, the
pizza is what it was before the call. -/
theorem removeExtraIngredient_throws_iff (p : Pizza) (extra : JSValue) :
    ((∃ e, (p.removeExtraIngredient extra).1 = .error e) ↔
      (extra ∉ Pizza.allowedExtraIngredients ∨ extra ∉ p.extraIngredients)) ∧
    (∀ e, (p.removeExtraIngredient extra).1 = .error e →
      (p.removeExtraIngredient extra).2 = p) := by
  by_cases ha : extra ∈ Pizza.allowedExtraIngredients
  · by_cases hd : extra ∈ p.extraIngredients
    · obtain ⟨l1, l2, -, -, hr⟩ := Pizza.removeExtraIngredient_present p extra ha hd
      simp [hr, ha, hd]
    · simp [Pizza.removeExtraIngredient_absent p extra ha hd, ha, hd]
  · simp [Pizza.removeExtraIngredient_invalid p extra ha, ha]

theorem removeExtraIngredient_throws_iff_witness :
    (Pizza.removeExtraIngredient ⟨Pizza.SIZE_S, Pizza.TYPE_VEGGIE, [Pizza.EXTRA_MEAT]⟩
        Pizza.EXTRA_CHEESE).2 = ⟨Pizza.SIZE_S, Pizza.TYPE_VEGGIE, [Pizza.EXTRA_MEAT]⟩ :=
  (removeExtraIngredient_throws_iff ⟨Pizza.SIZE_S, Pizza.TYPE_VEGGIE, [Pizza.EXTRA_MEAT]⟩
    Pizza.EXTRA_CHEESE).2 ⟨"No such ingredient in this pizza"⟩ rfl

/-- C6: for every pizza and every extra of `Pizza.allowedExtraIngredients` that is not yet
among the extras, `addExtraIngredient(extra)` returns, the new extras are the old ones
followed by `extra` (one element more), and size and type are untouched. -/
theorem addExtraIngredient_appends (p : Pizza) (extra : JSValue)
    (ha : extra ∈ Pizza.allowedExtraIngredients) (hd : extra ∉ p.extraIngredients) :
    (p.addExtraIngredient extra).1 = .ok () ∧
    (p.addExtraIngredient extra).2.extraIngredients = p.extraIngredients ++ [extra] ∧
    (p.addExtraIngredient extra).2.extraIngredients.length = p.extraIngredients.length + 1 ∧
    (p.addExtraIngredient extra).2.size = p.size ∧
    (p.addExtraIngredient extra).2.type = p.type := by
  rw [Pizza.addExtraIngredient_fresh p extra ha hd]
  simp

theorem addExtraIngredient_appends_witness :
    (Pizza.addExtraIngredient ⟨Pizza.SIZE_S, Pizza.TYPE_VEGGIE, [Pizza.EXTRA_MEAT]⟩
        Pizza.EXTRA_TOMATOES).2.extraIngredients = [Pizza.EXTRA_MEAT, Pizza.EXTRA_TOMATOES] :=
  (addExtraIngredient_appends ⟨Pizza.SIZE_S, Pizza.TYPE_VEGGIE, [Pizza.EXTRA_MEAT]⟩
    Pizza.EXTRA_TOMATOES (by decide) (by decide)).2.1

/-- C7: for every reachable pizza and every extra among its extras,
`removeExtraIngredient(extra)` returns; the new extras are the old ones with the first
occurrence of `extra` deleted, the others in the same order and one element fewer; and
`extra` occurs nowhere in the new extras. -/
theorem removeExtraIngredient_deletes (p : Pizza) (extra : JSValue) (hr : Reachable p)
    (hd : extra ∈ p.extraIngredients) :
    (p.removeExtraIngredient extra).1 = .ok () ∧
    (∃ l1 l2, p.extraIngredients = l1 ++ extra :: l2 ∧ extra ∉ l1 ∧
      (p.removeExtraIngredient extra).2.extraIngredients = l1 ++ l2) ∧
    (p.removeExtraIngredient extra).2.extraIngredients.length + 1 = p.extraIngredients.length ∧
    extra ∉ (p.removeExtraIngredient extra).2.extraIngredients := by
  have hv := hr.valid
  obtain ⟨l1, l2, e, hn, hrm⟩ := Pizza.removeExtraIngredient_present p extra (hv.2.1 extra hd) hd
  rw [hrm]
  refine ⟨rfl, ⟨l1, l2, e, hn, rfl⟩, ?_, ?_⟩
  · simp [e]
    omega
  · have hnd := hv.1
    rw [e] at hnd
    have h2 : extra ∉ l2 := (List.nodup_cons.mp (List.nodup_append.mp hnd).2.1).1
    simp [hn, h2]

theorem removeExtraIngredient_deletes_witness :
    (Pizza.removeExtraIngredient
        ⟨Pizza.SIZE_S, Pizza.TYPE_VEGGIE, [Pizza.EXTRA_MEAT, Pizza.EXTRA_CHEESE]⟩
        Pizza.EXTRA_MEAT).1 = .ok () ∧
    Pizza.EXTRA_MEAT ∉ (Pizza.removeExtraIngredient
        ⟨Pizza.SIZE_S, Pizza.TYPE_VEGGIE, [Pizza.EXTRA_MEAT, Pizza.EXTRA_CHEESE]⟩
        Pizza.EXTRA_MEAT).2.extraIngredients :=
  have h := removeExtraIngredient_deletes
    ⟨Pizza.SIZE_S, Pizza.TYPE_VEGGIE, [Pizza.EXTRA_MEAT, Pizza.EXTRA_CHEESE]⟩ Pizza.EXTRA_MEAT
    ⟨[Pizza.SIZE_S, Pizza.TYPE_VEGGIE], ⟨Pizza.SIZE_S, Pizza.TYPE_VEGGIE, []⟩,
      [.addExtraIngredient Pizza.EXTRA_MEAT, .addExtraIngredient Pizza.EXTRA_CHEESE],
      rfl, by decide⟩
    (by decide)
  ⟨h.1, h.2.2.2⟩

theorem count_message_ne (n : Nat) (msg : String) (h : msg.length ≤ 52) :
    "Invalid number of parameters passed to pizza, given " ++ toString n ++ " instead of 2"
      ≠ msg := by
  intro e
  have hl := congrArg String.length e
  simp only [String.length_append] at hl
  have h1 : "Invalid number of parameters passed to pizza, given ".length = 52 := by decide
  have h2 : " instead of 2".length = 13 := by decide
  omega

theorem new_wrong_count (arguments : List JSValue) (h : arguments.length ≠ 2) :
    Pizza.new arguments = .error ⟨"Invalid number of parameters passed to pizza, given " ++
      toString arguments.length ++ " instead of 2"⟩ := by
  unfold Pizza.new
  simp only [Pizza.NUMBER_OF_ARGUMENTS]
  rw [if_pos h]

/-- C8: for every list of constructor arguments whose length is not two, whatever the
arguments are, the constructor throws a `PizzaException` whose message gives the number of
arguments passed and the required number 2. -/
theorem new_throws_on_wrong_count (arguments : List JSValue) (h : arguments.length ≠ 2) :
    Pizza.new arguments = .error ⟨"Invalid number of parameters passed to pizza, given " ++
      toString arguments.length ++ " instead of 2"⟩ :=
  new_wrong_count arguments h

theorem new_throws_on_wrong_count_witness :
    Pizza.new [Pizza.SIZE_S] =
      .error ⟨"Invalid number of parameters passed to pizza, given 1 instead of 2"⟩ ∧
    Pizza.new [Pizza.SIZE_S, Pizza.TYPE_VEGGIE, Pizza.EXTRA_MEAT] =
      .error ⟨"Invalid number of parameters passed to pizza, given 3 instead of 2"⟩ :=
  ⟨new_throws_on_wrong_count [Pizza.SIZE_S] (by decide),
   new_throws_on_wrong_count [Pizza.SIZE_S, Pizza.TYPE_VEGGIE, Pizza.EXTRA_MEAT] (by decide)⟩

/-- C9: the constructor checks the number of arguments, then the size, then the type, and
the first check that fails gives the error: a wrong count gives the count error whatever the
arguments; two arguments with a size outside `Pizza.allowedSizes` give 'Invalid size of
pizza' whatever the type; and 'Invalid type of pizza' is the error exactly when there are
two arguments, the size is in `Pizza.allowedSizes` and the type is not in
`Pizza.allowedTypes`. -/
theorem new_validation_order (arguments : List JSValue) (size type : JSValue) :
    (arguments.length ≠ 2 →
      Pizza.new arguments = .error ⟨"Invalid number of parameters passed to pizza, given " ++
        toString arguments.length ++ " instead of 2"⟩) ∧
    (size ∉ Pizza.allowedSizes → Pizza.new [size, type] = .error ⟨"Invalid size of pizza"⟩) ∧
    (Pizza.new arguments = .error ⟨"Invalid type of pizza"⟩ ↔
      arguments.length = 2 ∧ arguments.getD 0 .undefined ∈ Pizza.allowedSizes ∧
      arguments.getD 1 .undefined ∉ Pizza.allowedTypes) := by
  refine ⟨new_wrong_count arguments, ?_, ?_⟩
  · intro hs
    have h1 : ¬ indexOf Pizza.allowedSizes size ≥ 0 := fun h => hs ((indexOf_nonneg_iff _ _).mp h)
    simp [Pizza.new, Pizza.NUMBER_OF_ARGUMENTS, h1]
  · by_cases hl : arguments.length = 2
    · unfold Pizza.new
      simp only [Pizza.NUMBER_OF_ARGUMENTS, indexOf_nonneg_iff]
      generalize arguments.getD 0 .undefined = a
      generalize arguments.getD 1 .undefined = b
      by_cases hs : a ∈ Pizza.allowedSizes <;> by_cases ht : b ∈ Pizza.allowedTypes <;>
        simp [hl, hs, ht]
    · rw [new_wrong_count arguments hl]
      have hne := count_message_ne arguments.length "Invalid type of pizza" (by decide)
      simp [hl, hne]

theorem new_validation_order_witness :
    Pizza.new [.number 7, .string "x"] = .error ⟨"Invalid size of pizza"⟩ ∧
    Pizza.new [.undefined] =
      .error ⟨"Invalid number of parameters passed to pizza, given 1 instead of 2"⟩ ∧
    Pizza.new [Pizza.SIZE_S, Pizza.SIZE_S] = .error ⟨"Invalid type of pizza"⟩ :=
  ⟨(new_validation_order [] (.number 7) (.string "x")).2.1 (by decide),
   (new_validation_order [.undefined] .null .null).1 (by decide),
   (new_validation_order [Pizza.SIZE_S, Pizza.SIZE_S] .null .null).2.2.mpr
     ⟨rfl, by decide, by decide⟩⟩

theorem getIngredients_foldl (extras : List OptionObject) (acc : String) (k : Nat) :
    ((extras.map JSValue.object).foldl Pizza.getIngredientsStep (some acc, k + 1)).1 =
      some (String.intercalate.go acc ", " (extras.map (fun e => e.name))) := by
  induction extras generalizing acc k with
  | nil => simp [String.intercalate.go]
  | cons e rest ih =>
    have hstep : Pizza.getIngredientsStep (some acc, k + 1) (JSValue.object e) =
        (some (acc ++ ", " ++ e.name), k + 1 + 1) := by
      simp [Pizza.getIngredientsStep, JSValue.name]
    simp only [List.map_cons, List.foldl_cons, hstep, ih, String.intercalate.go]

theorem getIngredients_eq_renderExtras (extras : List OptionObject) :
    Pizza.getIngredients (extras.map JSValue.object) =
      some (renderExtras (extras.map (fun e => e.name))) := by
  match extras with
  | [] => rfl
  | [e] => rfl
  | e1 :: e2 :: rest =>
    have hstep : Pizza.getIngredientsStep (some "", 0) (JSValue.object e1) =
        (some e1.name, 0 + 1) := by
      simp [Pizza.getIngredientsStep, JSValue.name]
    have h0 : ¬ ((e1 :: e2 :: rest).map JSValue.object).length = 0 := by simp
    have h1 : ¬ ((e1 :: e2 :: rest).map JSValue.object).length = 1 := by simp
    unfold Pizza.getIngredients
    rw [if_neg h0, if_neg h1]
    show ((List.map JSValue.object (e2 :: rest)).foldl Pizza.getIngredientsStep
      (Pizza.getIngredientsStep (some "", 0) (JSValue.object e1))).1 = _
    rw [hstep, getIngredients_foldl]
    simp [renderExtras, String.intercalate]

theorem intercalate_go_eq_foldl (ns : List String) (acc : String) :
    String.intercalate.go acc ", " ns = ns.foldl (fun acc n => acc ++ ", " ++ n) acc := by
  induction ns generalizing acc with
  | nil => rfl
  | cons n rest ih => simp only [String.intercalate.go, List.foldl_cons, ih]

/-- C10: for every pizza whose size, type and extras are option objects, `getPizzaInfo()`
is the string 'Size: ' + size.name + ', type: ' + type.name + '; extra ingredients: ' + R +
'; price: ' + getPrice() + 'UAH.', where R is 'none' for no extra, the name alone for one
extra, and for two or more the first name followed, for each later name in insertion order,
by ', ' and that name. -/
theorem getPizzaInfo_eq (size type : OptionObject) (extras : List OptionObject) :
    (∃ price, Pizza.getPrice ⟨.object size, .object type, extras.map .object⟩ = some price ∧
      Pizza.getPizzaInfo ⟨.object size, .object type, extras.map .object⟩ =
        some ("Size: " ++ size.name ++ ", type: " ++ type.name ++ "; extra ingredients: " ++
          renderExtras (extras.map (fun e => e.name)) ++ "; price: " ++ toString price ++
          "UAH.")) ∧
    renderExtras [] = "none" ∧
    (∀ n : String, renderExtras [n] = n) ∧
    (∀ n1 n2 : String, ∀ ns : List String,
      renderExtras (n1 :: n2 :: ns) = (n2 :: ns).foldl (fun acc n => acc ++ ", " ++ n) n1) := by
  have hp := getPrice_objects size type extras
  have hjoin : ∀ x : String, "; " ++ ("extra ingredients: " ++ x) = "; extra ingredients: " ++ x := by
    intro x
    rw [← String.append_assoc]
    rfl
  refine ⟨⟨_, hp, ?_⟩, rfl, fun _ => rfl, ?_⟩
  · simp only [Pizza.getPizzaInfo, hp, getIngredients_eq_renderExtras, JSValue.name,
      Option.bind_eq_bind, Option.some_bind, Option.pure_def, String.append_assoc, hjoin]
  · intro n1 n2 ns
    simp only [renderExtras, String.intercalate]
    exact intercalate_go_eq_foldl (n2 :: ns) n1

/-! ## The demo scenario and the round trips -/

/-- C11: the demo scenario. `new Pizza(SIZE_S, TYPE_VEGGIE)` costs 100; adding EXTRA_MEAT
gives 109, adding EXTRA_CHEESE 116, adding EXTRA_TOMATOES 121; removing EXTRA_CHEESE gives
114 with the two extras EXTRA_MEAT, EXTRA_TOMATOES, a size that is not SIZE_L and the info
string 'Size: SMALL, type: VEGGIE; extra ingredients: MEAT, TOMATOES; price: 114UAH.'; each
of the five calls returns. -/
theorem demo_scenario :
    Pizza.new [Pizza.SIZE_S, Pizza.TYPE_VEGGIE] = .ok ⟨Pizza.SIZE_S, Pizza.TYPE_VEGGIE, []⟩ ∧
    Pizza.getPrice ⟨Pizza.SIZE_S, Pizza.TYPE_VEGGIE, []⟩ = some 100 ∧
    Pizza.addExtraIngredient ⟨Pizza.SIZE_S, Pizza.TYPE_VEGGIE, []⟩ Pizza.EXTRA_MEAT =
      (.ok (), ⟨Pizza.SIZE_S, Pizza.TYPE_VEGGIE, [Pizza.EXTRA_MEAT]⟩) ∧
    Pizza.getPrice ⟨Pizza.SIZE_S, Pizza.TYPE_VEGGIE, [Pizza.EXTRA_MEAT]⟩ = some 109 ∧
    Pizza.addExtraIngredient ⟨Pizza.SIZE_S, Pizza.TYPE_VEGGIE, [Pizza.EXTRA_MEAT]⟩
        Pizza.EXTRA_CHEESE =
      (.ok (), ⟨Pizza.SIZE_S, Pizza.TYPE_VEGGIE, [Pizza.EXTRA_MEAT, Pizza.EXTRA_CHEESE]⟩) ∧
    Pizza.getPrice ⟨Pizza.SIZE_S, Pizza.TYPE_VEGGIE, [Pizza.EXTRA_MEAT, Pizza.EXTRA_CHEESE]⟩ =
      some 116 ∧
    Pizza.addExtraIngredient
        ⟨Pizza.SIZE_S, Pizza.TYPE_VEGGIE, [Pizza.EXTRA_MEAT, Pizza.EXTRA_CHEESE]⟩
        Pizza.EXTRA_TOMATOES =
      (.ok (), ⟨Pizza.SIZE_S, Pizza.TYPE_VEGGIE,
        [Pizza.EXTRA_MEAT, Pizza.EXTRA_CHEESE, Pizza.EXTRA_TOMATOES]⟩) ∧
    Pizza.getPrice ⟨Pizza.SIZE_S, Pizza.TYPE_VEGGIE,
        [Pizza.EXTRA_MEAT, Pizza.EXTRA_CHEESE, Pizza.EXTRA_TOMATOES]⟩ = some 121 ∧
    Pizza.removeExtraIngredient ⟨Pizza.SIZE_S, Pizza.TYPE_VEGGIE,
        [Pizza.EXTRA_MEAT, Pizza.EXTRA_CHEESE, Pizza.EXTRA_TOMATOES]⟩ Pizza.EXTRA_CHEESE =
      (.ok (), ⟨Pizza.SIZE_S, Pizza.TYPE_VEGGIE, [Pizza.EXTRA_MEAT, Pizza.EXTRA_TOMATOES]⟩) ∧
    Pizza.getPrice ⟨Pizza.SIZE_S, Pizza.TYPE_VEGGIE, [Pizza.EXTRA_MEAT, Pizza.EXTRA_TOMATOES]⟩ =
      some 114 ∧
    Pizza.getExtraIngredients
        ⟨Pizza.SIZE_S, Pizza.TYPE_VEGGIE, [Pizza.EXTRA_MEAT, Pizza.EXTRA_TOMATOES]⟩ =
      [Pizza.EXTRA_MEAT, Pizza.EXTRA_TOMATOES] ∧
    (Pizza.getExtraIngredients
        ⟨Pizza.SIZE_S, Pizza.TYPE_VEGGIE, [Pizza.EXTRA_MEAT, Pizza.EXTRA_TOMATOES]⟩).length = 2 ∧
    Pizza.getSize ⟨Pizza.SIZE_S, Pizza.TYPE_VEGGIE, [Pizza.EXTRA_MEAT, Pizza.EXTRA_TOMATOES]⟩ ≠
      Pizza.SIZE_L ∧
    Pizza.getPizzaInfo
        ⟨Pizza.SIZE_S, Pizza.TYPE_VEGGIE, [Pizza.EXTRA_MEAT, Pizza.EXTRA_TOMATOES]⟩ =
      some "Size: SMALL, type: VEGGIE; extra ingredients: MEAT, TOMATOES; price: 114UAH." := by
  refine ⟨rfl, ?_, rfl, ?_, rfl, ?_, rfl, ?_, rfl, ?_, rfl, rfl, ?_, ?_⟩ <;> decide

theorem indexOfFrom_append_self (xs : List JSValue) (v : JSValue) (i : Nat) (h : v ∉ xs) :
    indexOfFrom (xs ++ [v]) v i = ((i + xs.length : Nat) : Int) := by
  induction xs generalizing i with
  | nil => simp [indexOfFrom]
  | cons x rest ih =>
    have hx : x ≠ v := fun e => h (by simp [e])
    have hr : v ∉ rest := fun m => h (List.mem_cons_of_mem _ m)
    show indexOfFrom (x :: (rest ++ [v])) v i = _
    rw [indexOfFrom, if_neg hx, ih (i + 1) hr, List.length_cons]
    congr 1
    omega

theorem addExtraIngredient_ok_iff (p : Pizza) (extra : JSValue) :
    (p.addExtraIngredient extra).1 = .ok () ↔
      extra ∈ Pizza.allowedExtraIngredients ∧ extra ∉ p.extraIngredients := by
  by_cases ha : extra ∈ Pizza.allowedExtraIngredients
  · by_cases hd : extra ∈ p.extraIngredients
    · simp [Pizza.addExtraIngredient_duplicate p extra ha hd, ha, hd]
    · simp [Pizza.addExtraIngredient_fresh p extra ha hd, ha, hd]
  · simp [Pizza.addExtraIngredient_invalid p extra ha, ha]

theorem add_then_remove (p : Pizza) (extra : JSValue)
    (h : (p.addExtraIngredient extra).1 = .ok ()) :
    (p.addExtraIngredient extra).2.removeExtraIngredient extra = (.ok (), p) := by
  obtain ⟨ha, hd⟩ := (addExtraIngredient_ok_iff p extra).mp h
  rw [Pizza.addExtraIngredient_fresh p extra ha hd]
  have h1 : ¬ indexOf Pizza.allowedExtraIngredients extra < 0 := by
    have := (indexOf_nonneg_iff _ _).mpr ha
    omega
  have hi : indexOf (p.extraIngredients ++ [extra]) extra = ((p.extraIngredients.length : Nat) : Int) := by
    rw [indexOf, indexOfFrom_append_self _ _ 0 hd]
    simp
  have h2 : ¬ indexOf (p.extraIngredients ++ [extra]) extra < 0 := by
    rw [hi]
    omega
  have hsp : splice (p.extraIngredients ++ [extra])
      (indexOf (p.extraIngredients ++ [extra]) extra) 1 = p.extraIngredients := by
    rw [hi]
    simpa using splice_length_one p.extraIngredients [] extra
  simp only [Pizza.removeExtraIngredient, if_neg h1, if_neg h2, hsp]

/-- C12: whenever `addExtraIngredient(extra)` returns, an immediate
`removeExtraIngredient(extra)` returns too, and `getPrice()` afterwards is what it was before
the add. -/
theorem price_round_trip (p : Pizza) (extra : JSValue)
    (h : (p.addExtraIngredient extra).1 = .ok ()) :
    ((p.addExtraIngredient extra).2.removeExtraIngredient extra).1 = .ok () ∧
    ((p.addExtraIngredient extra).2.removeExtraIngredient extra).2.getPrice = p.getPrice := by
  rw [add_then_remove p extra h]
  exact ⟨rfl, rfl⟩

theorem price_round_trip_witness :
    (Pizza.addExtraIngredient ⟨Pizza.SIZE_M, Pizza.TYPE_VEGGIE, [Pizza.EXTRA_CHEESE]⟩
      Pizza.EXTRA_MEAT).1 = .ok () ∧
    Pizza.getPrice ⟨Pizza.SIZE_M, Pizza.TYPE_VEGGIE, [Pizza.EXTRA_CHEESE]⟩ = some 132 ∧
    ((Pizza.addExtraIngredient ⟨Pizza.SIZE_M, Pizza.TYPE_VEGGIE, [Pizza.EXTRA_CHEESE]⟩
      Pizza.EXTRA_MEAT).2.removeExtraIngredient Pizza.EXTRA_MEAT).2.getPrice =
      Pizza.getPrice ⟨Pizza.SIZE_M, Pizza.TYPE_VEGGIE, [Pizza.EXTRA_CHEESE]⟩ :=
  ⟨rfl, by decide,
    (price_round_trip ⟨Pizza.SIZE_M, Pizza.TYPE_VEGGIE, [Pizza.EXTRA_CHEESE]⟩
      Pizza.EXTRA_MEAT rfl).2⟩

theorem size_type_addExtraIngredient (p : Pizza) (extra : JSValue) :
    (p.addExtraIngredient extra).2.size = p.size ∧
    (p.addExtraIngredient extra).2.type = p.type := by
  unfold Pizza.addExtraIngredient
  split_ifs <;> exact ⟨rfl, rfl⟩

theorem size_type_removeExtraIngredient (p : Pizza) (extra : JSValue) :
    (p.removeExtraIngredient extra).2.size = p.size ∧
    (p.removeExtraIngredient extra).2.type = p.type := by
  unfold Pizza.removeExtraIngredient
  split_ifs <;> exact ⟨rfl, rfl⟩

theorem size_type_runOperations (p : Pizza) (ops : List Operation) :
    (runOperations p ops).size = p.size ∧ (runOperations p ops).type = p.type := by
  induction ops generalizing p with
  | nil => exact ⟨rfl, rfl⟩
  | cons op rest ih =>
    have hstep : (Operation.apply p op).size = p.size ∧ (Operation.apply p op).type = p.type := by
      cases op with
      | addExtraIngredient extra => exact size_type_addExtraIngredient p extra
      | removeExtraIngredient extra => exact size_type_removeExtraIngredient p extra
      | getExtraIngredients => exact ⟨rfl, rfl⟩
      | getPrice => exact ⟨rfl, rfl⟩
      | getPizzaInfo => exact ⟨rfl, rfl⟩
      | getSize => exact ⟨rfl, rfl⟩
    have hrest := ih (Operation.apply p op)
    exact ⟨hrest.1.trans hstep.1, hrest.2.trans hstep.2⟩

/-- C13: for a pizza built by `new Pizza(s, t)`, `getSize()` returns `s`; after any sequence
of `addExtraIngredient`, `removeExtraIngredient`, `getPrice`, `getPizzaInfo`,
`getExtraIngredients` and `getSize` calls, returning or throwing, `getSize()` still returns
`s` and the type is still `t`; the two mutators change no field but `extraIngredients`, and
the getters change no field. -/
theorem size_and_type_fixed (s t : JSValue) (p0 : Pizza) (ops : List Operation)
    (h : Pizza.new [s, t] = .ok p0) :
    p0.getSize = s ∧
    (runOperations p0 ops).getSize = s ∧
    (runOperations p0 ops).type = t ∧
    (∀ (p : Pizza) (extra : JSValue),
      (p.addExtraIngredient extra).2.size = p.size ∧
      (p.addExtraIngredient extra).2.type = p.type ∧
      (p.removeExtraIngredient extra).2.size = p.size ∧
      (p.removeExtraIngredient extra).2.type = p.type) ∧
    (∀ p : Pizza, Operation.apply p .getPrice = p ∧ Operation.apply p .getPizzaInfo = p ∧
      Operation.apply p .getExtraIngredients = p ∧ Operation.apply p .getSize = p) := by
  obtain ⟨-, -, -, rfl⟩ := (Pizza.new_ok_iff [s, t] p0).mp h
  have hrun := size_type_runOperations ⟨s, t, []⟩ ops
  refine ⟨rfl, hrun.1, hrun.2, ?_, fun p => ⟨rfl, rfl, rfl, rfl⟩⟩
  intro p extra
  exact ⟨(size_type_addExtraIngredient p extra).1, (size_type_addExtraIngredient p extra).2,
    (size_type_removeExtraIngredient p extra).1, (size_type_removeExtraIngredient p extra).2⟩

theorem size_and_type_fixed_witness :
    Pizza.new [Pizza.SIZE_L, Pizza.TYPE_PEPPERONI] =
      .ok ⟨Pizza.SIZE_L, Pizza.TYPE_PEPPERONI, []⟩ ∧
    (runOperations ⟨Pizza.SIZE_L, Pizza.TYPE_PEPPERONI, []⟩
      [.addExtraIngredient Pizza.EXTRA_MEAT, .getPrice, .addExtraIngredient Pizza.SIZE_S,
       .removeExtraIngredient Pizza.EXTRA_CHEESE, .getPizzaInfo, .getExtraIngredients,
       .removeExtraIngredient Pizza.EXTRA_MEAT, .getSize]).getSize = Pizza.SIZE_L :=
  ⟨rfl,
    (size_and_type_fixed Pizza.SIZE_L Pizza.TYPE_PEPPERONI
      ⟨Pizza.SIZE_L, Pizza.TYPE_PEPPERONI, []⟩
      [.addExtraIngredient Pizza.EXTRA_MEAT, .getPrice, .addExtraIngredient Pizza.SIZE_S,
       .removeExtraIngredient Pizza.EXTRA_CHEESE, .getPizzaInfo, .getExtraIngredients,
       .removeExtraIngredient Pizza.EXTRA_MEAT, .getSize] rfl).2.1⟩

/-! ## The catalogs -/

theorem new_foreign_type (size x : JSValue) (hs : size ∈ Pizza.allowedSizes)
    (hx : x ∉ Pizza.allowedTypes) :
    Pizza.new [size, x] = .error ⟨"Invalid type of pizza"⟩ := by
  have h1 : indexOf Pizza.allowedSizes size ≥ 0 := (indexOf_nonneg_iff _ _).mpr hs
  have h2 : ¬ indexOf Pizza.allowedTypes x ≥ 0 := fun h => hx ((indexOf_nonneg_iff _ _).mp h)
  simp [Pizza.new, Pizza.NUMBER_OF_ARGUMENTS, h1, h2]

/-- C14: the three catalogs are pairwise disjoint, each has three distinct entries whose
names are distinct; `new Pizza(SIZE_S, SIZE_S)` throws 'Invalid type of pizza', as does
`new Pizza(size, x)` for every size of the catalog and every `x` of `allowedSizes` or
`allowedExtraIngredients`; and `addExtraIngredient(x)` throws 'Invalid ingredient' on every
pizza for every `x` of `allowedSizes` or `allowedTypes`. -/
theorem catalogs_disjoint :
    (∀ x ∈ Pizza.allowedSizes, x ∉ Pizza.allowedTypes ∧ x ∉ Pizza.allowedExtraIngredients) ∧
    (∀ x ∈ Pizza.allowedTypes, x ∉ Pizza.allowedExtraIngredients) ∧
    (Pizza.allowedSizes.length = 3 ∧ Pizza.allowedSizes.Nodup ∧
      (Pizza.allowedSizes.map JSValue.name).Nodup) ∧
    (Pizza.allowedTypes.length = 3 ∧ Pizza.allowedTypes.Nodup ∧
      (Pizza.allowedTypes.map JSValue.name).Nodup) ∧
    (Pizza.allowedExtraIngredients.length = 3 ∧ Pizza.allowedExtraIngredients.Nodup ∧
      (Pizza.allowedExtraIngredients.map JSValue.name).Nodup) ∧
    Pizza.new [Pizza.SIZE_S, Pizza.SIZE_S] = .error ⟨"Invalid type of pizza"⟩ ∧
    (∀ size ∈ Pizza.allowedSizes, ∀ x ∈ Pizza.allowedSizes ++ Pizza.allowedExtraIngredients,
      Pizza.new [size, x] = .error ⟨"Invalid type of pizza"⟩) ∧
    (∀ (p : Pizza), ∀ x ∈ Pizza.allowedSizes ++ Pizza.allowedTypes,
      p.addExtraIngredient x = (.error ⟨"Invalid ingredient"⟩, p)) := by
  have hT : ∀ x ∈ Pizza.allowedSizes ++ Pizza.allowedExtraIngredients,
      x ∉ Pizza.allowedTypes := by decide
  have hE : ∀ x ∈ Pizza.allowedSizes ++ Pizza.allowedTypes,
      x ∉ Pizza.allowedExtraIngredients := by decide
  refine ⟨by decide, by decide, by decide, by decide, by decide, rfl, ?_, ?_⟩
  · intro size hs x hx
    exact new_foreign_type size x hs (hT x hx)
  · intro p x hx
    exact Pizza.addExtraIngredient_invalid p x (hE x hx)

theorem catalogs_disjoint_witness :
    Pizza.new [Pizza.SIZE_M, Pizza.EXTRA_CHEESE] = .error ⟨"Invalid type of pizza"⟩ ∧
    Pizza.addExtraIngredient ⟨Pizza.SIZE_S, Pizza.TYPE_VEGGIE, []⟩ Pizza.TYPE_PEPPERONI =
      (.error ⟨"Invalid ingredient"⟩, ⟨Pizza.SIZE_S, Pizza.TYPE_VEGGIE, []⟩) :=
  ⟨catalogs_disjoint.2.2.2.2.2.2.1 Pizza.SIZE_M (by decide) Pizza.EXTRA_CHEESE (by decide),
   catalogs_disjoint.2.2.2.2.2.2.2 ⟨Pizza.SIZE_S, Pizza.TYPE_VEGGIE, []⟩ Pizza.TYPE_PEPPERONI
     (by decide)⟩

theorem Valid_length_le (p : Pizza) (h : p.Valid) : p.extraIngredients.length ≤ 3 := by
  have hsub : p.extraIngredients ⊆ Pizza.allowedExtraIngredients := fun e he => h.2.1 e he
  exact (List.subperm_of_subset h.1 hsub).length_le

theorem Valid_add_ok_length (p : Pizza) (extra : JSValue) (h : p.Valid)
    (hok : (p.addExtraIngredient extra).1 = .ok ()) :
    (p.addExtraIngredient extra).2.Valid ∧
    (p.addExtraIngredient extra).2.extraIngredients.length = p.extraIngredients.length + 1 := by
  refine ⟨Pizza.Valid_addExtraIngredient p extra h, ?_⟩
  obtain ⟨ha, hd⟩ := (addExtraIngredient_ok_iff p extra).mp hok
  rw [Pizza.addExtraIngredient_fresh p extra ha hd]
  simp

/-- C15: every reachable pizza has at most three extras, the size of the catalog of extras,
so four `addExtraIngredient` calls in a row, with no removal in between, never all return. -/
theorem extras_bounded (p : Pizza) (hr : Reachable p) :
    p.extraIngredients.length ≤ Pizza.allowedExtraIngredients.length ∧
    p.extraIngredients.length ≤ 3 ∧
    (∀ e1 e2 e3 e4 : JSValue,
      ¬ ((p.addExtraIngredient e1).1 = .ok () ∧
         ((p.addExtraIngredient e1).2.addExtraIngredient e2).1 = .ok () ∧
         (((p.addExtraIngredient e1).2.addExtraIngredient e2).2.addExtraIngredient e3).1
            = .ok () ∧
         ((((p.addExtraIngredient e1).2.addExtraIngredient e2).2.addExtraIngredient e3).2
            |>.addExtraIngredient e4).1 = .ok ())) := by
  have hv := hr.valid
  refine ⟨Valid_length_le p hv, Valid_length_le p hv, ?_⟩
  rintro e1 e2 e3 e4 ⟨h1, h2, h3, h4⟩
  obtain ⟨v1, l1⟩ := Valid_add_ok_length p e1 hv h1
  obtain ⟨v2, l2⟩ := Valid_add_ok_length _ e2 v1 h2
  obtain ⟨v3, l3⟩ := Valid_add_ok_length _ e3 v2 h3
  obtain ⟨v4, l4⟩ := Valid_add_ok_length _ e4 v3 h4
  have hle := Valid_length_le _ v4
  omega

theorem extras_bounded_witness :
    (runCalls ⟨Pizza.SIZE_S, Pizza.TYPE_VEGGIE, []⟩
      [.addExtraIngredient Pizza.EXTRA_MEAT, .addExtraIngredient Pizza.EXTRA_CHEESE,
       .addExtraIngredient Pizza.EXTRA_TOMATOES, .addExtraIngredient Pizza.EXTRA_MEAT]
      ).extraIngredients.length ≤ 3 :=
  (extras_bounded _
    ⟨[Pizza.SIZE_S, Pizza.TYPE_VEGGIE], ⟨Pizza.SIZE_S, Pizza.TYPE_VEGGIE, []⟩,
      [.addExtraIngredient Pizza.EXTRA_MEAT, .addExtraIngredient Pizza.EXTRA_CHEESE,
       .addExtraIngredient Pizza.EXTRA_TOMATOES, .addExtraIngredient Pizza.EXTRA_MEAT],
      rfl, rfl⟩).2.1

/-! ## The comments of the demo -/

/-- C16: the info string of the demo scenario. After `new Pizza(SIZE_S, TYPE_VEGGIE)`, adding
EXTRA_MEAT, EXTRA_CHEESE, EXTRA_TOMATOES and removing EXTRA_CHEESE, `getPizzaInfo()` is
'Size: SMALL, type: VEGGIE; extra ingredients: MEAT, TOMATOES; price: 114UAH.', with a
space after the comma, and so is not the string of the expected-output comment, which has
'MEAT,TOMATOES'. -/
theorem demo_info_differs_from_comment :
    Pizza.new [Pizza.SIZE_S, Pizza.TYPE_VEGGIE] = .ok ⟨Pizza.SIZE_S, Pizza.TYPE_VEGGIE, []⟩ ∧
    (runCalls ⟨Pizza.SIZE_S, Pizza.TYPE_VEGGIE, []⟩
      [.addExtraIngredient Pizza.EXTRA_MEAT, .addExtraIngredient Pizza.EXTRA_CHEESE,
       .addExtraIngredient Pizza.EXTRA_TOMATOES,
       .removeExtraIngredient Pizza.EXTRA_CHEESE]).getPizzaInfo =
      some "Size: SMALL, type: VEGGIE; extra ingredients: MEAT, TOMATOES; price: 114UAH." ∧
    (runCalls ⟨Pizza.SIZE_S, Pizza.TYPE_VEGGIE, []⟩
      [.addExtraIngredient Pizza.EXTRA_MEAT, .addExtraIngredient Pizza.EXTRA_CHEESE,
       .addExtraIngredient Pizza.EXTRA_TOMATOES,
       .removeExtraIngredient Pizza.EXTRA_CHEESE]).getPizzaInfo ≠
      some "Size: SMALL, type: VEGGIE; extra ingredients: MEAT,TOMATOES; price: 114UAH." :=
  ⟨rfl, by decide, by decide⟩

/-- C17, as stated, fails: on the fresh `new Pizza(SIZE_S, TYPE_VEGGIE)` the call
`addExtraIngredient(EXTRA_MEAT)` does not throw 'Invalid ingredient'. -/
theorem fresh_add_meat_not_invalid :
    Pizza.new [Pizza.SIZE_S, Pizza.TYPE_VEGGIE] = .ok ⟨Pizza.SIZE_S, Pizza.TYPE_VEGGIE, []⟩ ∧
    ¬ ((Pizza.addExtraIngredient ⟨Pizza.SIZE_S, Pizza.TYPE_VEGGIE, []⟩ Pizza.EXTRA_MEAT).1 =
      .error ⟨"Invalid ingredient"⟩) := by
  refine ⟨rfl, ?_⟩
  have h : Pizza.addExtraIngredient ⟨Pizza.SIZE_S, Pizza.TYPE_VEGGIE, []⟩ Pizza.EXTRA_MEAT =
      (.ok (), ⟨Pizza.SIZE_S, Pizza.TYPE_VEGGIE, [Pizza.EXTRA_MEAT]⟩) := rfl
  rw [h]
  simp

/-- C17, amended: on the fresh `new Pizza(SIZE_S, TYPE_VEGGIE)` the call
`addExtraIngredient(EXTRA_MEAT)` returns and leaves the single extra EXTRA_MEAT; on that
pizza `addExtraIngredient(x)` throws 'Invalid ingredient' exactly for the values `x` outside
`Pizza.allowedExtraIngredients`. -/
theorem fresh_add_meat_returns :
    Pizza.new [Pizza.SIZE_S, Pizza.TYPE_VEGGIE] = .ok ⟨Pizza.SIZE_S, Pizza.TYPE_VEGGIE, []⟩ ∧
    Pizza.addExtraIngredient ⟨Pizza.SIZE_S, Pizza.TYPE_VEGGIE, []⟩ Pizza.EXTRA_MEAT =
      (.ok (), ⟨Pizza.SIZE_S, Pizza.TYPE_VEGGIE, [Pizza.EXTRA_MEAT]⟩) ∧
    (∀ x : JSValue,
      (Pizza.addExtraIngredient ⟨Pizza.SIZE_S, Pizza.TYPE_VEGGIE, []⟩ x).1 =
        .error ⟨"Invalid ingredient"⟩ ↔ x ∉ Pizza.allowedExtraIngredients) := by
  refine ⟨rfl, rfl, fun x => ?_⟩
  by_cases ha : x ∈ Pizza.allowedExtraIngredients
  · have hd : x ∉ (⟨Pizza.SIZE_S, Pizza.TYPE_VEGGIE, []⟩ : Pizza).extraIngredients := by simp
    rw [Pizza.addExtraIngredient_fresh _ x ha hd]
    simp [ha]
  · rw [Pizza.addExtraIngredient_invalid _ x ha]
    simp [ha]

/-! ## Round trips on the whole state -/

/-- C18: whenever `addExtraIngredient(extra)` returns, an immediate
`removeExtraIngredient(extra)` returns and restores the whole state: the same extras in the
same order, the same size and the same type. -/
theorem state_round_trip (p : Pizza) (extra : JSValue)
    (h : (p.addExtraIngredient extra).1 = .ok ()) :
    ((p.addExtraIngredient extra).2.removeExtraIngredient extra).1 = .ok () ∧
    ((p.addExtraIngredient extra).2.removeExtraIngredient extra).2 = p ∧
    ((p.addExtraIngredient extra).2.removeExtraIngredient extra).2.extraIngredients =
      p.extraIngredients ∧
    ((p.addExtraIngredient extra).2.removeExtraIngredient extra).2.size = p.size ∧
    ((p.addExtraIngredient extra).2.removeExtraIngredient extra).2.type = p.type := by
  rw [add_then_remove p extra h]
  exact ⟨rfl, rfl, rfl, rfl, rfl⟩

theorem state_round_trip_witness :
    (Pizza.addExtraIngredient
      ⟨Pizza.SIZE_M, Pizza.TYPE_VEGGIE, [Pizza.EXTRA_CHEESE, Pizza.EXTRA_TOMATOES]⟩
      Pizza.EXTRA_MEAT).1 = .ok () ∧
    ((Pizza.addExtraIngredient
      ⟨Pizza.SIZE_M, Pizza.TYPE_VEGGIE, [Pizza.EXTRA_CHEESE, Pizza.EXTRA_TOMATOES]⟩
      Pizza.EXTRA_MEAT).2.removeExtraIngredient Pizza.EXTRA_MEAT).2 =
      ⟨Pizza.SIZE_M, Pizza.TYPE_VEGGIE, [Pizza.EXTRA_CHEESE, Pizza.EXTRA_TOMATOES]⟩ :=
  ⟨rfl,
    (state_round_trip
      ⟨Pizza.SIZE_M, Pizza.TYPE_VEGGIE, [Pizza.EXTRA_CHEESE, Pizza.EXTRA_TOMATOES]⟩
      Pizza.EXTRA_MEAT rfl).2.1⟩

theorem getPrice_perm (size type : JSValue) (es es' : List JSValue) (h : es.Perm es') :
    Pizza.getPrice ⟨size, type, es⟩ = Pizza.getPrice ⟨size, type, es'⟩ := by
  unfold Pizza.getPrice
  refine List.Perm.foldl_eq' ((h.cons type).cons size) ?_ (some 0)
  intro x _ y _ z
  cases z <;> cases hx : x.price <;> cases hy : y.price <;> simp [Nat.add_right_comm]

theorem remove_then_add (p : Pizza) (extra : JSValue) (hv : p.Valid)
    (hd : extra ∈ p.extraIngredients) :
    ∃ l1 l2, p.extraIngredients = l1 ++ extra :: l2 ∧
      p.removeExtraIngredient extra = (.ok (), { p with extraIngredients := l1 ++ l2 }) ∧
      (p.removeExtraIngredient extra).2.addExtraIngredient extra =
        (.ok (), { p with extraIngredients := l1 ++ l2 ++ [extra] }) := by
  have ha := hv.2.1 extra hd
  obtain ⟨l1, l2, e, hn, hrm⟩ := Pizza.removeExtraIngredient_present p extra ha hd
  refine ⟨l1, l2, e, hrm, ?_⟩
  have hnd := hv.1
  rw [e] at hnd
  have h2 : extra ∉ l2 := (List.nodup_cons.mp (List.nodup_append.mp hnd).2.1).1
  have hfresh : extra ∉ ({ p with extraIngredients := l1 ++ l2 } : Pizza).extraIngredients := by
    simp [hn, h2]
  rw [hrm, Pizza.addExtraIngredient_fresh _ extra ha hfresh]

/-- C19: for every reachable pizza and every extra among its extras,
`removeExtraIngredient(extra)` followed by `addExtraIngredient(extra)` both return and leave
`getPrice()`, the size, the type and the set of extras unchanged, while the list of extras
is the old one with `extra` moved to the end; and on the reachable pizza with the extras
EXTRA_MEAT, EXTRA_TOMATOES and `extra` = EXTRA_MEAT the resulting list and the resulting
`getPizzaInfo()` differ from the original ones. -/
theorem reverse_round_trip (p : Pizza) (extra : JSValue) (hr : Reachable p)
    (hd : extra ∈ p.extraIngredients) :
    (p.removeExtraIngredient extra).1 = .ok () ∧
    ((p.removeExtraIngredient extra).2.addExtraIngredient extra).1 = .ok () ∧
    ((p.removeExtraIngredient extra).2.addExtraIngredient extra).2.getPrice = p.getPrice ∧
    ((p.removeExtraIngredient extra).2.addExtraIngredient extra).2.size = p.size ∧
    ((p.removeExtraIngredient extra).2.addExtraIngredient extra).2.type = p.type ∧
    (∀ x, x ∈ ((p.removeExtraIngredient extra).2.addExtraIngredient extra).2.extraIngredients ↔
      x ∈ p.extraIngredients) ∧
    (∃ l1 l2, p.extraIngredients = l1 ++ extra :: l2 ∧
      ((p.removeExtraIngredient extra).2.addExtraIngredient extra).2.extraIngredients =
        l1 ++ l2 ++ [extra]) ∧
    (∃ q : Pizza, Reachable q ∧ q.extraIngredients = [Pizza.EXTRA_MEAT, Pizza.EXTRA_TOMATOES] ∧
      ((q.removeExtraIngredient Pizza.EXTRA_MEAT).2.addExtraIngredient
        Pizza.EXTRA_MEAT).2.extraIngredients ≠ q.extraIngredients ∧
      ((q.removeExtraIngredient Pizza.EXTRA_MEAT).2.addExtraIngredient
        Pizza.EXTRA_MEAT).2.getPizzaInfo ≠ q.getPizzaInfo) := by
  obtain ⟨l1, l2, e, hrm, hadd⟩ := remove_then_add p extra hr.valid hd
  have hperm : (l1 ++ l2 ++ [extra]).Perm p.extraIngredients := by
    rw [e]
    have h1 : (l1 ++ l2 ++ [extra]).Perm (extra :: (l1 ++ l2)) :=
      @List.perm_append_comm _ (l1 ++ l2) [extra]
    have h2 : (l1 ++ extra :: l2).Perm (extra :: (l1 ++ l2)) := List.perm_middle
    exact h1.trans h2.symm
  refine ⟨by rw [hrm], by rw [hadd], ?_, by rw [hadd], by rw [hadd], ?_, ⟨l1, l2, e, by rw [hadd]⟩,
    ?_⟩
  · rw [hadd]
    exact getPrice_perm p.size p.type _ _ hperm
  · intro x
    rw [hadd]
    exact hperm.mem_iff
  · refine ⟨⟨Pizza.SIZE_S, Pizza.TYPE_VEGGIE, [Pizza.EXTRA_MEAT, Pizza.EXTRA_TOMATOES]⟩,
      ⟨[Pizza.SIZE_S, Pizza.TYPE_VEGGIE], ⟨Pizza.SIZE_S, Pizza.TYPE_VEGGIE, []⟩,
        [.addExtraIngredient Pizza.EXTRA_MEAT, .addExtraIngredient Pizza.EXTRA_TOMATOES],
        rfl, rfl⟩, rfl, by decide, by decide⟩

theorem reverse_round_trip_witness :
    ((Pizza.removeExtraIngredient
        ⟨Pizza.SIZE_S, Pizza.TYPE_VEGGIE, [Pizza.EXTRA_MEAT, Pizza.EXTRA_TOMATOES]⟩
        Pizza.EXTRA_MEAT).2.addExtraIngredient Pizza.EXTRA_MEAT).2.getPrice =
      Pizza.getPrice ⟨Pizza.SIZE_S, Pizza.TYPE_VEGGIE, [Pizza.EXTRA_MEAT, Pizza.EXTRA_TOMATOES]⟩ :=
  (reverse_round_trip
    ⟨Pizza.SIZE_S, Pizza.TYPE_VEGGIE, [Pizza.EXTRA_MEAT, Pizza.EXTRA_TOMATOES]⟩ Pizza.EXTRA_MEAT
    ⟨[Pizza.SIZE_S, Pizza.TYPE_VEGGIE], ⟨Pizza.SIZE_S, Pizza.TYPE_VEGGIE, []⟩,
      [.addExtraIngredient Pizza.EXTRA_MEAT, .addExtraIngredient Pizza.EXTRA_TOMATOES],
      rfl, rfl⟩
    (by decide)).2.2.1

theorem renderExtras_eq_reference (names : List String) :
    renderExtras names = getIngredientsReference names := by
  match names with
  | [] => rfl
  | [n] => simp [renderExtras, getIngredientsReference, String.intercalate, String.intercalate.go]
  | n1 :: n2 :: rest => simp [renderExtras, getIngredientsReference]

/-- C20: for every list of option objects, of any length and with or without duplicates, the
three-branch `getIngredients` returns the reference rendering, `none` for the empty list and
otherwise the names intercalated with ', '; and on a one-element list the dedicated branch
returns what the reduce branch returns. -/
theorem getIngredients_eq_reference (extras : List OptionObject) :
    Pizza.getIngredients (extras.map JSValue.object) =
      some (getIngredientsReference (extras.map (fun e => e.name))) ∧
    (∀ e : OptionObject,
      Pizza.getIngredients [JSValue.object e] = getIngredientsReduce [JSValue.object e] ∧
      getIngredientsReduce [JSValue.object e] = some e.name) := by
  refine ⟨?_, fun e => ?_⟩
  · rw [getIngredients_eq_renderExtras, renderExtras_eq_reference]
  · have hstep : Pizza.getIngredientsStep (some "", 0) (JSValue.object e) =
        (some e.name, 0 + 1) := by
      simp [Pizza.getIngredientsStep, JSValue.name]
    have hred : getIngredientsReduce [JSValue.object e] = some e.name := by
      simp only [getIngredientsReduce, List.foldl_cons, List.foldl_nil, hstep]
    exact ⟨by rw [hred]; rfl, hred⟩
